import Mathlib

/-!
Verification of the textureatlas packer (`textureatlas/textureatlas.py` and
`textureatlas/__main__.py`).

The Python classes are shallowly embedded:

* `Rect` is the dataclass `Rect` (non-negative machine integers become `Nat`).
* A `PackRegion` object is a binary tree: either *free* (its `packable`
  attribute is `None`, no subregions) or *occupied* (a stored `packable`
  plus the two subregions created at pack time).  The mutating method
  `PackRegion.pack` becomes a state-passing function returning the boolean
  result together with the updated tree and the updated packable (packing
  mutates the packable's position in the source).
* `Frame` keeps only its geometry: image decoding is an external
  collaborator, so a frame is modelled by the dimensions the collaborator
  reports.
* The binary map writer becomes a function producing the list of emitted
  bytes; the JSON map writer becomes a function producing the structured
  entries it serializes.  A texture name is a list of Unicode code points
  (Python `len(str)` counts code points, `str.encode` produces UTF-8 bytes;
  the distinction matters to the binary writer).
* The auto-growth driver loop of `__main__.py` is modelled with explicit
  fuel, since its termination is one of the claims under study.
-/

/-- The dataclass `Rect`: an axis-aligned rectangle, position plus size. -/
structure Rect where
  x : Nat
  y : Nat
  width : Nat
  height : Nat
deriving DecidableEq, Repr

/-- `Rect.perimeter`: `2 * (self.width + self.height)`. -/
def Rect.perimeter (r : Rect) : Nat := 2 * (r.width + r.height)

/-- Area of a rectangle (used to state the tiling invariant). -/
def Rect.area (r : Rect) : Nat := r.width * r.height

/-- A `PackRegion` object: free (its `packable` is `None`, and both
subregions are `None`), or occupied, holding the packed rectangle and the
two subregions created by `pack`. -/
inductive PackRegion where
  | free (rect : Rect)
  | node (rect : Rect) (packable : Rect) (subregion_1 subregion_2 : PackRegion)
deriving DecidableEq, Repr

/-- The `Rect` part a `PackRegion` inherits (its own x, y, width, height). -/
def PackRegion.rect : PackRegion → Rect
  | .free r => r
  | .node r _ _ _ => r

/-- `PackRegion.pack`, state-passing: returns the boolean result, the
updated region tree, and the updated packable (on success the packable's
position is set to the region's origin).  On a free region, fails when the
packable is wider or taller than the region; otherwise stores the packable
and creates the two subregions.  On an occupied region, recurses into the
subregion with the strictly larger perimeter first, then the other. -/
def PackRegion.pack : PackRegion → Rect → Bool × PackRegion × Rect
  | .free r, p =>
    if p.width > r.width ∨ p.height > r.height then
      (false, .free r, p)
    else
      let p' : Rect := { p with x := r.x, y := r.y }
      (true,
        .node r p'
          (.free ⟨r.x, r.y + p'.height, p'.width, r.height - p'.height⟩)
          (.free ⟨r.x + p'.width, r.y, r.width - p'.width, r.height⟩),
        p')
  | .node r q s1 s2, p =>
    if s1.rect.perimeter > s2.rect.perimeter then
      match s1.pack p with
      | (true, s1', p') => (true, .node r q s1' s2, p')
      | (false, s1', p1) =>
        match s2.pack p1 with
        | (ok, s2', p') => (ok, .node r q s1' s2', p')
    else
      match s2.pack p with
      | (true, s2', p') => (true, .node r q s1 s2', p')
      | (false, s2', p1) =>
        match s1.pack p1 with
        | (ok, s1', p') => (ok, .node r q s1' s2', p')

/-- `PackRegion.get_free_regions`: the list of all unpopulated regions of
the subtree, subregion 1 first. -/
def PackRegion.get_free_regions : PackRegion → List PackRegion
  | .free r => [.free r]
  | .node _ _ s1 s2 => s1.get_free_regions ++ s2.get_free_regions

/-- The rectangles of all packables stored in a subtree. -/
def PackRegion.occupants : PackRegion → List Rect
  | .free _ => []
  | .node _ q s1 s2 => q :: (s1.occupants ++ s2.occupants)

/-- The rectangles of all free leaf regions, via `get_free_regions`. -/
def PackRegion.freeRects (t : PackRegion) : List Rect :=
  t.get_free_regions.map PackRegion.rect

/-- Run a sequence of `pack` calls, requiring every one of them to
succeed; `none` when some call returns false. -/
def packSeq : PackRegion → List Rect → Option PackRegion
  | t, [] => some t
  | t, p :: ps =>
    match t.pack p with
    | (true, t', _) => packSeq t' ps
    | (false, _, _) => none

/-- Total area of a list of rectangles. -/
def sumArea (l : List Rect) : Nat := (l.map Rect.area).sum

/-- Two rectangles overlap when their interiors intersect. -/
def Rect.overlap (a b : Rect) : Prop :=
  max a.x b.x < min (a.x + a.width) (b.x + b.width) ∧
  max a.y b.y < min (a.y + a.height) (b.y + b.height)

instance (a b : Rect) : Decidable (a.overlap b) := by
  unfold Rect.overlap
  exact inferInstance

/-- Separation: the two rectangles lie on opposite sides of an axis-aligned
line (stronger than non-overlap, stable under shrinking either side). -/
def Rect.sep (a b : Rect) : Prop :=
  a.x + a.width ≤ b.x ∨ b.x + b.width ≤ a.x ∨
  a.y + a.height ≤ b.y ∨ b.y + b.height ≤ a.y

/-- `a` lies inside `b`. -/
def Rect.insideOf (a b : Rect) : Prop :=
  b.x ≤ a.x ∧ b.y ≤ a.y ∧
  a.x + a.width ≤ b.x + b.width ∧ a.y + a.height ≤ b.y + b.height

theorem Rect.sep_symm {a b : Rect} (h : a.sep b) : b.sep a := by
  unfold Rect.sep at *
  omega

theorem Rect.not_overlap_of_sep {a b : Rect} (h : a.sep b) : ¬ a.overlap b := by
  unfold Rect.sep at h
  unfold Rect.overlap
  omega

theorem Rect.insideOf_refl (a : Rect) : a.insideOf a := by
  unfold Rect.insideOf
  omega

theorem Rect.sep_mono {a b A B : Rect} (ha : a.insideOf A) (hb : b.insideOf B)
    (hAB : A.sep B) : a.sep b := by
  unfold Rect.insideOf at ha hb
  unfold Rect.sep at *
  omega

theorem Rect.insideOf_trans {a b c : Rect} (h1 : a.insideOf b)
    (h2 : b.insideOf c) : a.insideOf c := by
  unfold Rect.insideOf at *
  omega

/-- Structural well-formedness of a region tree: at an occupied node the
stored packable sits at the node's origin, fits inside the node, and the
two subregions are exactly the rectangles `pack` creates. -/
inductive PackRegion.WF : PackRegion → Prop
  | free (r : Rect) : PackRegion.WF (.free r)
  | node (r q : Rect) (s1 s2 : PackRegion)
      (hx : q.x = r.x) (hy : q.y = r.y)
      (hw : q.width ≤ r.width) (hh : q.height ≤ r.height)
      (h1 : s1.rect = ⟨r.x, r.y + q.height, q.width, r.height - q.height⟩)
      (h2 : s2.rect = ⟨r.x + q.width, r.y, r.width - q.width, r.height⟩)
      (w1 : PackRegion.WF s1) (w2 : PackRegion.WF s2) :
      PackRegion.WF (.node r q s1 s2)

/-- Packing never changes the rectangle of the region itself. -/
theorem PackRegion.pack_rect (t : PackRegion) (p : Rect) :
    (t.pack p).2.1.rect = t.rect := by
  induction t generalizing p with
  | free r =>
    by_cases h : p.width > r.width ∨ p.height > r.height <;>
      simp [PackRegion.pack, h, PackRegion.rect]
  | node r q s1 s2 ih1 ih2 =>
    rw [PackRegion.pack]
    by_cases h : s1.rect.perimeter > s2.rect.perimeter
    · rw [if_pos h]
      rcases h1 : s1.pack p with ⟨ok1, s1', p1⟩
      cases ok1 <;> simp only
      · rcases h2 : s2.pack p1 with ⟨ok2, s2', p2⟩
        simp [PackRegion.rect]
      · simp [PackRegion.rect]
    · rw [if_neg h]
      rcases h2 : s2.pack p with ⟨ok2, s2', p2⟩
      cases ok2 <;> simp only
      · rcases h1 : s1.pack p2 with ⟨ok1, s1', p1⟩
        simp [PackRegion.rect]
      · simp [PackRegion.rect]

/-- Packing does not change the packable's dimensions (only its position). -/
theorem PackRegion.pack_dims (t : PackRegion) (p : Rect) :
    (t.pack p).2.2.width = p.width ∧ (t.pack p).2.2.height = p.height := by
  induction t generalizing p with
  | free r =>
    by_cases h : p.width > r.width ∨ p.height > r.height <;>
      simp [PackRegion.pack, h]
  | node r q s1 s2 ih1 ih2 =>
    rw [PackRegion.pack]
    by_cases h : s1.rect.perimeter > s2.rect.perimeter
    · rw [if_pos h]
      rcases h1 : s1.pack p with ⟨ok1, s1', p1⟩
      have d1 := ih1 p
      rw [h1] at d1
      cases ok1 <;> simp only
      · rcases h2 : s2.pack p1 with ⟨ok2, s2', p2⟩
        have d2 := ih2 p1
        rw [h2] at d2
        simp only at d1 d2
        simpa [d2] using d1
      · simpa using d1
    · rw [if_neg h]
      rcases h2 : s2.pack p with ⟨ok2, s2', p2⟩
      have d2 := ih2 p
      rw [h2] at d2
      cases ok2 <;> simp only
      · rcases h1 : s1.pack p2 with ⟨ok1, s1', p1⟩
        have d1 := ih1 p2
        rw [h1] at d1
        simp only at d1 d2
        simpa [d1] using d2
      · simpa using d2

/-- A failed `pack` call leaves the region tree and the packable exactly
as they were. -/
theorem PackRegion.pack_fail_id (t : PackRegion) (p : Rect)
    (h : (t.pack p).1 = false) : (t.pack p).2.1 = t ∧ (t.pack p).2.2 = p := by
  induction t generalizing p with
  | free r =>
    by_cases hc : p.width > r.width ∨ p.height > r.height <;>
      simp_all [PackRegion.pack, hc]
  | node r q s1 s2 ih1 ih2 =>
    rw [PackRegion.pack] at h ⊢
    by_cases hc : s1.rect.perimeter > s2.rect.perimeter
    · rw [if_pos hc] at h ⊢
      rcases h1 : s1.pack p with ⟨ok1, s1', p1⟩
      rw [h1] at h
      cases ok1
      · simp only at h ⊢
        rcases h2 : s2.pack p1 with ⟨ok2, s2', p2⟩
        rw [h2] at h
        simp only at h ⊢
        subst h
        obtain ⟨e1t, e1p⟩ := ih1 p (by simp [h1])
        rw [h1] at e1t e1p
        simp only at e1t e1p
        obtain ⟨e2t, e2p⟩ := ih2 p1 (by simp [h2])
        rw [h2] at e2t e2p
        simp only at e2t e2p
        subst e1t; subst e2t; subst e1p; subst e2p
        exact ⟨rfl, rfl⟩
      · simp at h
    · rw [if_neg hc] at h ⊢
      rcases h2 : s2.pack p with ⟨ok2, s2', p2⟩
      rw [h2] at h
      cases ok2
      · simp only at h ⊢
        rcases h1 : s1.pack p2 with ⟨ok1, s1', p1⟩
        rw [h1] at h
        simp only at h ⊢
        subst h
        obtain ⟨e2t, e2p⟩ := ih2 p (by simp [h2])
        rw [h2] at e2t e2p
        simp only at e2t e2p
        obtain ⟨e1t, e1p⟩ := ih1 p2 (by simp [h1])
        rw [h1] at e1t e1p
        simp only at e1t e1p
        subst e2t; subst e1t; subst e2p; subst e1p
        exact ⟨rfl, rfl⟩
      · simp at h

/-- `pack` preserves well-formedness of the region tree. -/
theorem PackRegion.pack_WF {t : PackRegion} (w : t.WF) (p : Rect) :
    (t.pack p).2.1.WF := by
  induction t generalizing p with
  | free r =>
    by_cases h : p.width > r.width ∨ p.height > r.height
    · simp only [PackRegion.pack, if_pos h]
      exact .free r
    · rw [PackRegion.pack, if_neg h]
      push_neg at h
      exact .node r _ _ _ rfl rfl h.1 h.2 rfl rfl (.free _) (.free _)
  | node r q s1 s2 ih1 ih2 =>
    cases w with
    | node _ _ _ _ hx hy hw hh h1 h2 w1 w2 =>
    rw [PackRegion.pack]
    by_cases hc : s1.rect.perimeter > s2.rect.perimeter
    · rw [if_pos hc]
      rcases e1 : s1.pack p with ⟨ok1, s1', p1⟩
      have r1 := PackRegion.pack_rect s1 p
      have wf1 := ih1 w1 p
      rw [e1] at r1 wf1
      simp only at r1 wf1
      cases ok1
      · simp only
        rcases e2 : s2.pack p1 with ⟨ok2, s2', p2⟩
        have r2 := PackRegion.pack_rect s2 p1
        have wf2 := ih2 w2 p1
        rw [e2] at r2 wf2
        simp only at r2 wf2
        exact .node r q s1' s2' hx hy hw hh (r1.trans h1) (r2.trans h2) wf1 wf2
      · exact .node r q s1' s2 hx hy hw hh (r1.trans h1) h2 wf1 w2
    · rw [if_neg hc]
      rcases e2 : s2.pack p with ⟨ok2, s2', p2⟩
      have r2 := PackRegion.pack_rect s2 p
      have wf2 := ih2 w2 p
      rw [e2] at r2 wf2
      simp only at r2 wf2
      cases ok2
      · simp only
        rcases e1 : s1.pack p2 with ⟨ok1, s1', p1⟩
        have r1 := PackRegion.pack_rect s1 p2
        have wf1 := ih1 w1 p2
        rw [e1] at r1 wf1
        simp only at r1 wf1
        exact .node r q s1' s2' hx hy hw hh (r1.trans h1) (r2.trans h2) wf1 wf2
      · exact .node r q s1 s2' hx hy hw hh h1 (r2.trans h2) w1 wf2

/-- A successful pack sequence preserves well-formedness. -/
theorem packSeq_WF {t t' : PackRegion} {ps : List Rect} (w : t.WF)
    (h : packSeq t ps = some t') : t'.WF := by
  induction ps generalizing t with
  | nil => simp [packSeq] at h; exact h ▸ w
  | cons p ps ih =>
    rw [packSeq] at h
    rcases e : t.pack p with ⟨ok, t1, p1⟩
    rw [e] at h
    cases ok
    · simp at h
    · simp only at h
      have := PackRegion.pack_WF w p
      rw [e] at this
      exact ih this h

/-- A successful pack sequence preserves the root's rectangle. -/
theorem packSeq_rect {t t' : PackRegion} {ps : List Rect}
    (h : packSeq t ps = some t') : t'.rect = t.rect := by
  induction ps generalizing t with
  | nil => simp [packSeq] at h; rw [h]
  | cons p ps ih =>
    rw [packSeq] at h
    rcases e : t.pack p with ⟨ok, t1, p1⟩
    rw [e] at h
    cases ok
    · simp at h
    · simp only at h
      have hr := PackRegion.pack_rect t p
      rw [e] at hr
      exact (ih h).trans hr

theorem sumArea_append (l1 l2 : List Rect) :
    sumArea (l1 ++ l2) = sumArea l1 + sumArea l2 := by
  simp [sumArea]

/-- In a well-formed tree the areas of occupants and free leaves add up to
the area of the whole region. -/
theorem PackRegion.area_tiling {t : PackRegion} (w : t.WF) :
    sumArea (t.occupants ++ t.freeRects) = t.rect.area := by
  induction t with
  | free r =>
    simp [occupants, freeRects, get_free_regions, sumArea, rect]
  | node r q s1 s2 ih1 ih2 =>
    cases w with
    | node _ _ _ _ hx hy hw hh h1 h2 w1 w2 =>
    have a1 := ih1 w1
    have a2 := ih2 w2
    have expand : sumArea ((PackRegion.node r q s1 s2).occupants ++
        (PackRegion.node r q s1 s2).freeRects) =
        q.area + (sumArea (s1.occupants ++ s1.freeRects) +
          sumArea (s2.occupants ++ s2.freeRects)) := by
      simp only [occupants, freeRects, get_free_regions, List.map_append,
        List.cons_append, sumArea_append]
      simp [sumArea]
      ring
    rw [expand, a1, a2, h1, h2]
    simp only [Rect.area, PackRegion.rect]
    zify [hw, hh]
    ring

/-- In a well-formed tree, every occupant and every free-leaf rectangle
lies inside the region's rectangle. -/
theorem PackRegion.allRects_inside {t : PackRegion} (w : t.WF) :
    ∀ a ∈ t.occupants ++ t.freeRects, a.insideOf t.rect := by
  induction t with
  | free r =>
    intro a ha
    simp [occupants, freeRects, get_free_regions, rect] at ha
    exact ha ▸ Rect.insideOf_refl r
  | node r q s1 s2 ih1 ih2 =>
    cases w with
    | node _ _ _ _ hx hy hw hh h1 h2 w1 w2 =>
    intro a ha
    have hs1r : s1.rect.insideOf r := by
      rw [h1]; unfold Rect.insideOf; simp only; omega
    have hs2r : s2.rect.insideOf r := by
      rw [h2]; unfold Rect.insideOf; simp only; omega
    have hsplit : (PackRegion.node r q s1 s2).occupants ++
        (PackRegion.node r q s1 s2).freeRects =
        q :: ((s1.occupants ++ s2.occupants) ++ (s1.freeRects ++ s2.freeRects)) := by
      simp [occupants, freeRects, get_free_regions]
    rw [hsplit] at ha
    show a.insideOf r
    rcases List.mem_cons.1 ha with rfl | hmem
    · unfold Rect.insideOf; omega
    · rcases List.mem_append.1 hmem with hocc | hfr
      · rcases List.mem_append.1 hocc with h | h
        · exact Rect.insideOf_trans (ih1 w1 a (List.mem_append_left _ h)) hs1r
        · exact Rect.insideOf_trans (ih2 w2 a (List.mem_append_left _ h)) hs2r
      · rcases List.mem_append.1 hfr with h | h
        · exact Rect.insideOf_trans (ih1 w1 a (List.mem_append_right _ h)) hs1r
        · exact Rect.insideOf_trans (ih2 w2 a (List.mem_append_right _ h)) hs2r

/-- In a well-formed tree, occupants and free-leaf rectangles are pairwise
separated. -/
theorem PackRegion.pairwise_sep {t : PackRegion} (w : t.WF) :
    (t.occupants ++ t.freeRects).Pairwise Rect.sep := by
  induction t with
  | free r =>
    simp [occupants, freeRects, get_free_regions]
  | node r q s1 s2 ih1 ih2 =>
    cases w with
    | node _ _ _ _ hx hy hw hh h1 h2 w1 w2 =>
    have sq1 : q.sep s1.rect := by
      rw [h1]; unfold Rect.sep; simp only; omega
    have sq2 : q.sep s2.rect := by
      rw [h2]; unfold Rect.sep; simp only; omega
    have s12 : s1.rect.sep s2.rect := by
      rw [h1, h2]; unfold Rect.sep; simp only; omega
    have in1 := PackRegion.allRects_inside w1
    have in2 := PackRegion.allRects_inside w2
    have hpair : (q :: ((s1.occupants ++ s1.freeRects) ++
        (s2.occupants ++ s2.freeRects))).Pairwise Rect.sep := by
      refine List.Pairwise.cons ?_ ?_
      · intro b hb
        rcases List.mem_append.1 hb with h | h
        · exact Rect.sep_mono (Rect.insideOf_refl q) (in1 b h) sq1
        · exact Rect.sep_mono (Rect.insideOf_refl q) (in2 b h) sq2
      · rw [List.pairwise_append]
        refine ⟨ih1 w1, ih2 w2, ?_⟩
        intro a ha b hb
        exact Rect.sep_mono (in1 a ha) (in2 b hb) s12
    have hstep : List.Perm
        (s1.occupants ++ (s1.freeRects ++ (s2.occupants ++ s2.freeRects)))
        (s1.occupants ++ (s2.occupants ++ (s1.freeRects ++ s2.freeRects))) :=
      List.Perm.append_left _ (List.perm_append_comm_assoc _ _ _)
    have hmid : List.Perm
        ((s1.occupants ++ s1.freeRects) ++ (s2.occupants ++ s2.freeRects))
        ((s1.occupants ++ s2.occupants) ++ (s1.freeRects ++ s2.freeRects)) := by
      simpa [List.append_assoc] using hstep
    have hperm : List.Perm
        (q :: ((s1.occupants ++ s1.freeRects) ++ (s2.occupants ++ s2.freeRects)))
        ((PackRegion.node r q s1 s2).occupants ++
          (PackRegion.node r q s1 s2).freeRects) := by
      have hsplit : (PackRegion.node r q s1 s2).occupants ++
          (PackRegion.node r q s1 s2).freeRects =
          q :: ((s1.occupants ++ s2.occupants) ++ (s1.freeRects ++ s2.freeRects)) := by
        simp [occupants, freeRects, get_free_regions]
      rw [hsplit]
      exact List.Perm.cons q hmid
    exact hpair.perm hperm (fun h => Rect.sep_symm h)

/-- C1: for every region tree built from a fresh root by any sequence of
successful `pack` calls (each intermediate state being reachable by such a
sequence), the occupant rectangles together with the free-leaf rectangles
tile the root: their areas sum to the root's area and no two of them
overlap. -/
theorem pack_tiling_invariant (root : Rect) (ps : List Rect) (t : PackRegion)
    (hp : packSeq (.free root) ps = some t) :
    sumArea (t.occupants ++ t.freeRects) = root.area ∧
    (t.occupants ++ t.freeRects).Pairwise (fun a b => ¬ a.overlap b) := by
  have wf := packSeq_WF (PackRegion.WF.free root) hp
  have hr := packSeq_rect hp
  have harea := PackRegion.area_tiling wf
  rw [hr] at harea
  simp only [PackRegion.rect] at harea
  refine ⟨harea, ?_⟩
  exact (PackRegion.pairwise_sep wf).imp (fun h => Rect.not_overlap_of_sep h)

/-- Witness for C1: a concrete two-step pack sequence into a 4x4 root. -/
theorem pack_tiling_invariant_witness :
    sumArea ((PackRegion.node ⟨0,0,4,4⟩ ⟨0,0,2,2⟩ (.free ⟨0,2,2,2⟩)
        (.node ⟨2,0,2,4⟩ ⟨2,0,2,1⟩ (.free ⟨2,1,2,3⟩)
          (.free ⟨4,0,0,4⟩))).occupants ++
      (PackRegion.node ⟨0,0,4,4⟩ ⟨0,0,2,2⟩ (.free ⟨0,2,2,2⟩)
        (.node ⟨2,0,2,4⟩ ⟨2,0,2,1⟩ (.free ⟨2,1,2,3⟩)
          (.free ⟨4,0,0,4⟩))).freeRects) = Rect.area ⟨0,0,4,4⟩ ∧
    ((PackRegion.node ⟨0,0,4,4⟩ ⟨0,0,2,2⟩ (.free ⟨0,2,2,2⟩)
        (.node ⟨2,0,2,4⟩ ⟨2,0,2,1⟩ (.free ⟨2,1,2,3⟩)
          (.free ⟨4,0,0,4⟩))).occupants ++
      (PackRegion.node ⟨0,0,4,4⟩ ⟨0,0,2,2⟩ (.free ⟨0,2,2,2⟩)
        (.node ⟨2,0,2,4⟩ ⟨2,0,2,1⟩ (.free ⟨2,1,2,3⟩)
          (.free ⟨4,0,0,4⟩))).freeRects).Pairwise (fun a b => ¬ a.overlap b) :=
  pack_tiling_invariant ⟨0,0,4,4⟩ [⟨0,0,2,2⟩, ⟨0,0,2,1⟩] _ (by decide)

/-- A successful `pack` call creates exactly one extra free leaf. -/
theorem PackRegion.pack_free_count (t : PackRegion) (p : Rect)
    (h : (t.pack p).1 = true) :
    (t.pack p).2.1.get_free_regions.length = t.get_free_regions.length + 1 := by
  induction t generalizing p with
  | free r =>
    by_cases hc : p.width > r.width ∨ p.height > r.height
    · rw [PackRegion.pack, if_pos hc] at h
      simp at h
    · rw [PackRegion.pack, if_neg hc]
      simp [get_free_regions]
  | node r q s1 s2 ih1 ih2 =>
    rw [PackRegion.pack] at h ⊢
    by_cases hc : s1.rect.perimeter > s2.rect.perimeter
    · rw [if_pos hc] at h ⊢
      rcases e1 : s1.pack p with ⟨ok1, s1', p1⟩
      rw [e1] at h
      cases ok1
      · simp only at h ⊢
        rcases e2 : s2.pack p1 with ⟨ok2, s2', p2⟩
        rw [e2] at h
        simp only at h ⊢
        subst h
        have hfix := PackRegion.pack_fail_id s1 p (by simp [e1])
        rw [e1] at hfix
        simp only at hfix
        have hcnt := ih2 p1 (by simp [e2])
        rw [e2] at hcnt
        simp only at hcnt
        simp [get_free_regions, hfix.1, hcnt]
        omega
      · simp only at h ⊢
        have hcnt := ih1 p (by simp [e1])
        rw [e1] at hcnt
        simp only at hcnt
        simp [get_free_regions, hcnt]
        omega
    · rw [if_neg hc] at h ⊢
      rcases e2 : s2.pack p with ⟨ok2, s2', p2⟩
      rw [e2] at h
      cases ok2
      · simp only at h ⊢
        rcases e1 : s1.pack p2 with ⟨ok1, s1', p1⟩
        rw [e1] at h
        simp only at h ⊢
        subst h
        have hfix := PackRegion.pack_fail_id s2 p (by simp [e2])
        rw [e2] at hfix
        simp only at hfix
        have hcnt := ih1 p2 (by simp [e1])
        rw [e1] at hcnt
        simp only at hcnt
        simp [get_free_regions, hfix.1, hcnt]
        omega
      · simp only at h ⊢
        have hcnt := ih2 p (by simp [e2])
        rw [e2] at hcnt
        simp only at hcnt
        simp [get_free_regions, hcnt]
        omega

/-- A successful pack sequence of length n adds n free leaves. -/
theorem packSeq_free_count {t t' : PackRegion} {ps : List Rect}
    (h : packSeq t ps = some t') :
    t'.get_free_regions.length = t.get_free_regions.length + ps.length := by
  induction ps generalizing t with
  | nil => simp [packSeq] at h; subst h; simp
  | cons p ps ih =>
    rw [packSeq] at h
    rcases e : t.pack p with ⟨ok, t1, p1⟩
    rw [e] at h
    cases ok
    · simp at h
    · simp only at h
      have hcnt := PackRegion.pack_free_count t p (by simp [e])
      rw [e] at hcnt
      simp only at hcnt
      rw [ih h, hcnt, List.length_cons]
      omega

/-- Every element of `get_free_regions` is a free leaf. -/
theorem PackRegion.get_free_regions_are_free (t : PackRegion) :
    ∀ u ∈ t.get_free_regions, ∃ r, u = PackRegion.free r := by
  induction t with
  | free r =>
    intro u hu
    simp [get_free_regions] at hu
    exact ⟨r, hu⟩
  | node r q s1 s2 ih1 ih2 =>
    intro u hu
    rw [get_free_regions] at hu
    rcases List.mem_append.1 hu with h | h
    · exact ih1 u h
    · exact ih2 u h

/-- C10: after n successful `pack` calls on a fresh root,
`get_free_regions` returns exactly n + 1 regions, each a free leaf (no
occupant, no children); the traversal itself is a pure read of the tree. -/
theorem get_free_regions_count (root : Rect) (ps : List Rect) (t : PackRegion)
    (hp : packSeq (.free root) ps = some t) :
    t.get_free_regions.length = ps.length + 1 ∧
    ∀ u ∈ t.get_free_regions, ∃ r, u = PackRegion.free r := by
  have hcnt := packSeq_free_count hp
  simp [PackRegion.get_free_regions] at hcnt
  exact ⟨by omega, PackRegion.get_free_regions_are_free t⟩

/-- Witness for C10: one successful pack into a 5x3 root leaves 2 free
regions. -/
theorem get_free_regions_count_witness :
    (PackRegion.node ⟨0,0,5,3⟩ ⟨0,0,1,2⟩ (.free ⟨0,2,1,1⟩)
        (.free ⟨1,0,4,3⟩)).get_free_regions.length = 1 + 1 ∧
    ∀ u ∈ (PackRegion.node ⟨0,0,5,3⟩ ⟨0,0,1,2⟩ (.free ⟨0,2,1,1⟩)
        (.free ⟨1,0,4,3⟩)).get_free_regions, ∃ r, u = PackRegion.free r :=
  get_free_regions_count ⟨0,0,5,3⟩ [⟨7,7,1,2⟩] _ (by decide)

/-- C6: on a free region `pack` returns false exactly when the packable is
wider or taller than the region; otherwise it succeeds, placing the
packable at the region's origin and occupying the region with the two
subregions of the split; and whenever `pack` returns false on any region,
free or occupied, the region tree and the packable are left unchanged. -/
theorem pack_spec :
    (∀ r p : Rect, ((PackRegion.free r).pack p).1 = false ↔
      (p.width > r.width ∨ p.height > r.height)) ∧
    (∀ r p : Rect, ¬(p.width > r.width ∨ p.height > r.height) →
      (PackRegion.free r).pack p =
        (true,
          .node r { p with x := r.x, y := r.y }
            (.free ⟨r.x, r.y + p.height, p.width, r.height - p.height⟩)
            (.free ⟨r.x + p.width, r.y, r.width - p.width, r.height⟩),
          { p with x := r.x, y := r.y })) ∧
    (∀ (t : PackRegion) (p : Rect), (t.pack p).1 = false →
      (t.pack p).2.1 = t ∧ (t.pack p).2.2 = p) := by
  refine ⟨?_, ?_, PackRegion.pack_fail_id⟩
  · intro r p
    by_cases h : p.width > r.width ∨ p.height > r.height <;>
      simp [PackRegion.pack, h]
  · intro r p h
    rw [PackRegion.pack, if_neg h]

/-- Witness for C6: a failing call (packable too wide) leaves the tree and
the packable unchanged. -/
theorem pack_spec_witness :
    ((PackRegion.free ⟨0,0,4,4⟩).pack ⟨7,7,5,2⟩).2.1 = PackRegion.free ⟨0,0,4,4⟩ ∧
    ((PackRegion.free ⟨0,0,4,4⟩).pack ⟨7,7,5,2⟩).2.2 = (⟨7,7,5,2⟩ : Rect) :=
  pack_spec.2.2 (PackRegion.free ⟨0,0,4,4⟩) ⟨7,7,5,2⟩ (by decide)

/-- C7 counterexample: a degenerate free region (zero width) accepts a
zero-width packable, so it is not true that a degenerate region rejects
every offered `Rect`. -/
theorem degenerate_accepts_counterexample :
    ((PackRegion.free ⟨0, 0, 0, 5⟩).pack ⟨0, 0, 0, 3⟩).1 = true := by decide

/-- C7 amended: a degenerate free region (zero width or zero height)
rejects every packable of positive width and height. -/
theorem degenerate_rejects_positive (r p : Rect)
    (hdeg : r.width = 0 ∨ r.height = 0) (hw : 0 < p.width) (hh : 0 < p.height) :
    ((PackRegion.free r).pack p).1 = false := by
  have hgt : p.width > r.width ∨ p.height > r.height := by omega
  simp [PackRegion.pack, hgt]

/-- Witness for the amended C7: the zero-width region rejects a 2x3
packable. -/
theorem degenerate_rejects_positive_witness :
    ((PackRegion.free ⟨0, 0, 0, 5⟩).pack ⟨0, 0, 2, 3⟩).1 = false :=
  degenerate_rejects_positive ⟨0, 0, 0, 5⟩ ⟨0, 0, 2, 3⟩ (by decide)
    (by decide) (by decide)

/-- The dataclass `Texture`: a name (a list of Unicode code points, since
Python string length counts code points) and an ordered list of frames,
each reduced to its `Rect` geometry. -/
structure Texture where
  name : List Nat
  frames : List Rect
deriving DecidableEq, Repr

/-- The geometric effect of `Frame.__init__`: after querying the image
collaborator for `(width, height)`, the `Rect` part is initialized as
`(0, 0, width, height)`; no validation of the reported dimensions is
performed. -/
def Frame.ofSize (width height : Nat) : Rect := ⟨0, 0, width, height⟩

/-- `TextureAtlas`: the root `PackRegion` plus the textures appended by
`pack_texture`. -/
structure TextureAtlas where
  region : PackRegion
  textures : List Texture
deriving DecidableEq, Repr

/-- `TextureAtlas(width, height)`: a fresh free root at the origin, no
textures. -/
def TextureAtlas.mkAtlas (width height : Nat) : TextureAtlas :=
  ⟨.free ⟨0, 0, width, height⟩, []⟩

/-- The frame loop of `pack_texture`: packs each frame in order into the
region tree, stopping at the first failure; threads the updated tree and
the frames' updated positions. -/
def packFrames : PackRegion → List Rect → Bool × PackRegion × List Rect
  | reg, [] => (true, reg, [])
  | reg, f :: fs =>
    match reg.pack f with
    | (true, reg', f') =>
      match packFrames reg' fs with
      | (ok, reg'', fs') => (ok, reg'', f' :: fs')
    | (false, reg', f') => (false, reg', f' :: fs)

/-- `TextureAtlas.pack_texture`: appends the texture to the atlas's list,
then packs its frames in order; returns false as soon as any frame fails
(the appended texture stays in the list, holding whatever positions were
assigned). -/
def TextureAtlas.pack_texture (a : TextureAtlas) (t : Texture) :
    Bool × TextureAtlas × Texture :=
  match packFrames a.region t.frames with
  | (ok, reg', fs') =>
    (ok, ⟨reg', a.textures ++ [⟨t.name, fs'⟩]⟩, ⟨t.name, fs'⟩)

/-- Python's `max(..., key=...)`: keeps the first element whose key is
maximal (a later element replaces the best only when strictly greater). -/
def maxByPerimeter : PackRegion → List PackRegion → PackRegion
  | best, [] => best
  | best, r :: rs =>
    maxByPerimeter (if r.rect.perimeter > best.rect.perimeter then r else best) rs

/-- `max(atlas.get_free_regions(), key=lambda r: r.perimeter)`; the list
is never empty, the empty fallback only keeps the function total. -/
def biggestFreeSpace (t : PackRegion) : PackRegion :=
  match t.get_free_regions with
  | [] => t
  | r :: rs => maxByPerimeter r rs

/-- One pass of the `while` loop body in `main`: pack every texture in
order; on the first `pack_texture` failure, compute the grown dimensions
exactly as the source does — compare the biggest free region's width with
`texture.frames[0].width` and grow width or height by the first frame's
dimension — and abandon this atlas. -/
def packAll (w h : Nat) : TextureAtlas → List Texture → Sum TextureAtlas (Nat × Nat)
  | a, [] => .inl a
  | a, t :: ts =>
    match a.pack_texture t with
    | (true, a', _) => packAll w h a' ts
    | (false, a', t') =>
      let f0 := t'.frames.headD ⟨0, 0, 0, 0⟩
      if (biggestFreeSpace a'.region).rect.width < f0.width then
        .inr (w + f0.width, h)
      else
        .inr (w, h + f0.height)

/-- The `while not finished` loop of `main`, with explicit fuel: each
iteration builds a fresh atlas and either finishes or retries at the
grown size.  Fuel is needed because (as proved below) the loop does not
always terminate. -/
def growLoop : Nat → Nat → Nat → List Texture → Option TextureAtlas
  | 0, _, _, _ => none
  | fuel + 1, w, h, ts =>
    match packAll w h (TextureAtlas.mkAtlas w h) ts with
    | .inl a => some a
    | .inr (w', h') => growLoop fuel w' h' ts

/-- The sort key of `main`: `t.frames[0].perimeter`. -/
def texKey (t : Texture) : Nat := (t.frames.headD ⟨0, 0, 0, 0⟩).perimeter

/-- Stable insertion modelling Python's stable
`sorted(..., reverse=True)`: an element goes after every element with a
strictly larger key and before the first element with a smaller-or-equal
key — the order a stable descending sort produces. -/
def insertDesc (t : Texture) : List Texture → List Texture
  | [] => [t]
  | u :: us => if texKey t < texKey u then u :: insertDesc t us else t :: u :: us

/-- `sorted(textures, key=lambda t: t.frames[0].perimeter, reverse=True)`. -/
def sortTextures (ts : List Texture) : List Texture :=
  ts.foldr insertDesc []

/-- `main` after argument parsing: sort the textures, initialize the
canvas size from the first sorted texture's first frame, run the growth
loop. -/
def mainPipeline (fuel : Nat) (ts0 : List Texture) : Option TextureAtlas :=
  let ts := sortTextures ts0
  let largest_frame := (ts.headD ⟨[], []⟩).frames.headD ⟨0, 0, 0, 0⟩
  growLoop fuel largest_frame.width largest_frame.height ts

/-- The growth rule exactly as claim C3 states it (from the spec's
words, for comparison with the code): grow by the dimensions of the
specific frame whose placement failed. -/
def claimGrowth (w h : Nat) (biggest failing : Rect) : Nat × Nat :=
  if biggest.width < failing.width then (w + failing.width, h)
  else (w, h + failing.height)

/-- `packFrames` preserves the dimensions of the first frame (packing
only moves frames). -/
theorem packFrames_head_dims (reg : PackRegion) (fs : List Rect) :
    ((packFrames reg fs).2.2.headD ⟨0,0,0,0⟩).width = (fs.headD ⟨0,0,0,0⟩).width ∧
    ((packFrames reg fs).2.2.headD ⟨0,0,0,0⟩).height = (fs.headD ⟨0,0,0,0⟩).height := by
  cases fs with
  | nil => simp [packFrames]
  | cons f fs =>
    rw [packFrames]
    rcases e : reg.pack f with ⟨ok, reg', f'⟩
    have hd := PackRegion.pack_dims reg f
    rw [e] at hd
    simp only at hd
    cases ok
    · simp [hd]
    · rcases e2 : packFrames reg' fs with ⟨ok2, reg'', fs'⟩
      simp [hd]

/-- C3 counterexample: packing the texture with frames [1x1, 10x1] into a
fresh 1x1 atlas fails at the second frame (the first frame packs fine),
and the loop grows the height by 1 — using `frames[0]` — while the
claim's rule applied to the actually failing 10x1 frame would grow the
width to 11.  The two results disagree. -/
theorem growth_first_frame_counterexample :
    packAll 1 1 (TextureAtlas.mkAtlas 1 1) [⟨[97], [⟨0,0,1,1⟩, ⟨0,0,10,1⟩]⟩] =
      Sum.inr (1, 2) ∧
    ((TextureAtlas.mkAtlas 1 1).region.pack ⟨0,0,1,1⟩).1 = true ∧
    ((TextureAtlas.mkAtlas 1 1).pack_texture ⟨[97], [⟨0,0,1,1⟩, ⟨0,0,10,1⟩]⟩).1
      = false ∧
    claimGrowth 1 1
      (biggestFreeSpace ((TextureAtlas.mkAtlas 1 1).pack_texture
        ⟨[97], [⟨0,0,1,1⟩, ⟨0,0,10,1⟩]⟩).2.1.region).rect ⟨0,0,10,1⟩ = (11, 1) ∧
    (Sum.inr (1, 2) : Sum TextureAtlas (Nat × Nat)) ≠ Sum.inr (11, 1) := by
  decide

/-- C3 amended: on the first `pack_texture` failure the loop compares the
maximal-perimeter free region's width with the width of the failing
texture's FIRST frame (`texture.frames[0]`) — not the frame that actually
failed — and grows by the first frame's width or height accordingly. -/
theorem growth_uses_first_frame (w h : Nat) (a : TextureAtlas) (t : Texture)
    (ts : List Texture) (hfail : (a.pack_texture t).1 = false) :
    packAll w h a (t :: ts) =
      (if (biggestFreeSpace (a.pack_texture t).2.1.region).rect.width <
          (t.frames.headD ⟨0, 0, 0, 0⟩).width then
        Sum.inr (w + (t.frames.headD ⟨0, 0, 0, 0⟩).width, h)
      else
        Sum.inr (w, h + (t.frames.headD ⟨0, 0, 0, 0⟩).height)) := by
  rw [packAll]
  rcases e : a.pack_texture t with ⟨ok, a', t'⟩
  rw [e] at hfail
  simp only at hfail
  subst hfail
  have hdims : (t'.frames.headD ⟨0,0,0,0⟩).width = (t.frames.headD ⟨0,0,0,0⟩).width ∧
      (t'.frames.headD ⟨0,0,0,0⟩).height = (t.frames.headD ⟨0,0,0,0⟩).height := by
    have := packFrames_head_dims a.region t.frames
    rw [TextureAtlas.pack_texture] at e
    rcases e2 : packFrames a.region t.frames with ⟨ok2, reg', fs'⟩
    rw [e2] at e this
    simp only at e this
    have ht' : t' = ⟨t.name, fs'⟩ := by
      have he := congrArg (fun x => x.2.2) e
      simp only at he
      exact he.symm
    rw [ht']
    exact this
  simp only [hdims.1, hdims.2]

/-- Witness for the amended C3 at a concrete failing texture. -/
theorem growth_uses_first_frame_witness :
    packAll 1 1 (TextureAtlas.mkAtlas 1 1) [⟨[98], [⟨0,0,1,1⟩, ⟨0,0,10,1⟩]⟩] =
      (if (biggestFreeSpace ((TextureAtlas.mkAtlas 1 1).pack_texture
          ⟨[98], [⟨0,0,1,1⟩, ⟨0,0,10,1⟩]⟩).2.1.region).rect.width <
          ((Texture.mk [98] [⟨0,0,1,1⟩, ⟨0,0,10,1⟩]).frames.headD ⟨0,0,0,0⟩).width then
        Sum.inr (1 + ((Texture.mk [98] [⟨0,0,1,1⟩, ⟨0,0,10,1⟩]).frames.headD
          ⟨0,0,0,0⟩).width, 1)
      else
        Sum.inr (1, 1 + ((Texture.mk [98] [⟨0,0,1,1⟩, ⟨0,0,10,1⟩]).frames.headD
          ⟨0,0,0,0⟩).height)) :=
  growth_uses_first_frame 1 1 (TextureAtlas.mkAtlas 1 1)
    ⟨[98], [⟨0,0,1,1⟩, ⟨0,0,10,1⟩]⟩ [] (by decide)

/-- One iteration of the growth loop on the [1x1, 10x1] texture at canvas
size 1 x (k+1): the first frame packs, the 10x1 frame fails everywhere,
the biggest free region (first maximal, width 1) is not narrower than
frames[0] (width 1), so only the height grows. -/
theorem packAll_step (k : Nat) :
    packAll 1 (k + 1) (TextureAtlas.mkAtlas 1 (k + 1))
      [⟨[97], [⟨0,0,1,1⟩, ⟨0,0,10,1⟩]⟩] = Sum.inr (1, k + 2) := by
  have hp0 : PackRegion.pack (.free ⟨0,0,1,k+1⟩) ⟨0,0,1,1⟩ =
      (true, .node ⟨0,0,1,k+1⟩ ⟨0,0,1,1⟩ (.free ⟨0,1,1,k⟩) (.free ⟨1,0,0,k+1⟩),
        ⟨0,0,1,1⟩) := by
    rw [PackRegion.pack, if_neg (by show ¬(1 > 1 ∨ 1 > k + 1); omega)]
    simp
  have hpa : PackRegion.pack (.free ⟨1,0,0,k+1⟩) ⟨0,0,10,1⟩ =
      (false, .free ⟨1,0,0,k+1⟩, ⟨0,0,10,1⟩) := by
    rw [PackRegion.pack, if_pos (by show 10 > 0 ∨ 1 > k + 1; omega)]
  have hpb : PackRegion.pack (.free ⟨0,1,1,k⟩) ⟨0,0,10,1⟩ =
      (false, .free ⟨0,1,1,k⟩, ⟨0,0,10,1⟩) := by
    rw [PackRegion.pack, if_pos (by show 10 > 1 ∨ 1 > k; omega)]
  have hp1 : PackRegion.pack
      (.node ⟨0,0,1,k+1⟩ ⟨0,0,1,1⟩ (.free ⟨0,1,1,k⟩) (.free ⟨1,0,0,k+1⟩))
      ⟨0,0,10,1⟩ =
      (false, .node ⟨0,0,1,k+1⟩ ⟨0,0,1,1⟩ (.free ⟨0,1,1,k⟩) (.free ⟨1,0,0,k+1⟩),
        ⟨0,0,10,1⟩) := by
    rw [PackRegion.pack,
      if_neg (by simp only [PackRegion.rect, Rect.perimeter]; omega)]
    rw [hpa]
    simp only
    rw [hpb]
  have hf : packFrames (.free ⟨0,0,1,k+1⟩) [⟨0,0,1,1⟩, ⟨0,0,10,1⟩] =
      (false, .node ⟨0,0,1,k+1⟩ ⟨0,0,1,1⟩ (.free ⟨0,1,1,k⟩) (.free ⟨1,0,0,k+1⟩),
        [⟨0,0,1,1⟩, ⟨0,0,10,1⟩]) := by
    rw [packFrames, hp0]
    simp only
    rw [packFrames, hp1]
  have hb : biggestFreeSpace
      (.node ⟨0,0,1,k+1⟩ ⟨0,0,1,1⟩ (.free ⟨0,1,1,k⟩) (.free ⟨1,0,0,k+1⟩)) =
      .free ⟨0,1,1,k⟩ := by
    rw [biggestFreeSpace]
    simp only [PackRegion.get_free_regions, List.cons_append, List.nil_append]
    rw [maxByPerimeter,
      if_neg (by simp only [PackRegion.rect, Rect.perimeter]; omega),
      maxByPerimeter]
  rw [packAll]
  simp only [TextureAtlas.pack_texture, TextureAtlas.mkAtlas, hf, hb]
  simp [PackRegion.rect]

/-- The growth loop never exits on the [1x1, 10x1] texture, from any
height, for any number of iterations. -/
theorem growLoop_diverges_from (fuel : Nat) :
    ∀ k, growLoop fuel 1 (k + 1) [⟨[97], [⟨0,0,1,1⟩, ⟨0,0,10,1⟩]⟩] = none := by
  induction fuel with
  | zero => intro k; rfl
  | succ n ih =>
    intro k
    rw [growLoop, packAll_step k]
    exact ih (k + 1)

/-- C5 refuted: the auto-growth loop does not terminate on the single
texture with frames [1x1, 10x1]: every iteration grows only the height
(1 x h becomes 1 x (h+1)) and the 10-wide frame never fits, so the loop
yields no atlas under any iteration bound. -/
theorem growth_loop_nontermination (fuel : Nat) :
    mainPipeline fuel [⟨[97], [⟨0,0,1,1⟩, ⟨0,0,10,1⟩]⟩] = none :=
  growLoop_diverges_from fuel 0

/-- Little-endian 4-byte encoding of a 32-bit unsigned value, as
`struct.pack("I", n)` produces on the usual little-endian platforms. -/
def le32 (n : Nat) : List Nat :=
  [n % 256, n / 256 % 256, n / 65536 % 256, n / 16777216 % 256]

/-- UTF-8 encoding of one Unicode code point (what CPython's
`str.encode("utf-8")` emits per character). -/
def utf8EncodeCp (c : Nat) : List Nat :=
  if c < 128 then [c]
  else if c < 2048 then [192 + c / 64, 128 + c % 64]
  else if c < 65536 then
    [224 + c / 4096, 128 + c / 64 % 64, 128 + c % 64]
  else
    [240 + c / 262144, 128 + c / 4096 % 64, 128 + c / 64 % 64, 128 + c % 64]

/-- UTF-8 encoding of a whole name. -/
def utf8Encode (name : List Nat) : List Nat :=
  (name.map utf8EncodeCp).flatten

/-- The texture-record section of the binary map: a 12-byte record
`(str_offset, frame count, frm_offset)` per texture, with the running
offsets advanced by `len(t.name) + 1` — the code-point count of the name,
exactly as the source does — and `len(t.frames) * 16`. -/
def textureRecords : List Texture → Nat → Nat → List Nat
  | [], _, _ => []
  | t :: ts, str_offset, frm_offset =>
    le32 str_offset ++ le32 t.frames.length ++ le32 frm_offset ++
      textureRecords ts (str_offset + t.name.length + 1)
        (frm_offset + t.frames.length * 16)

/-- The string section: each name UTF-8 encoded followed by one null. -/
def stringSection (ts : List Texture) : List Nat :=
  (ts.map (fun t => utf8Encode t.name ++ [0])).flatten

/-- The frame section: 16 bytes per frame, grouped by texture. -/
def frameSection (ts : List Texture) : List Nat :=
  (ts.map (fun t =>
    (t.frames.map (fun f =>
      le32 f.x ++ le32 f.y ++ le32 f.width ++ le32 f.height)).flatten)).flatten

/-- `BinaryTextureAtlasMap.write`: the emitted bytes.  Section offsets
and sizes are computed exactly as in the source; in particular
`str_section_len` sums `len(t.name) + 1`, the code-point count of each
name, even though the bytes actually written are the UTF-8 encoding. -/
def binaryMap (width height : Nat) (texs : List Texture) : List Nat :=
  let tex_section_off := 40
  let tex_section_len := texs.length * 12
  let str_section_off := tex_section_off + tex_section_len
  let str_section_len := (texs.map (fun t => t.name.length + 1)).sum
  let frm_section_off := str_section_off + str_section_len
  let frm_section_len := (texs.map (fun t => t.frames.length)).sum * 16
  [84, 69, 88, 65] ++
  le32 width ++ le32 height ++ le32 texs.length ++
  le32 tex_section_off ++ le32 tex_section_len ++
  le32 str_section_off ++ le32 str_section_len ++
  le32 frm_section_off ++ le32 frm_section_len ++
  textureRecords texs 0 0 ++
  stringSection texs ++
  frameSection texs

/-- C2: the binary round-trip offset contract fails for non-ASCII names.
For the 1x1 atlas holding one texture named U+00E9 with one 1x1 frame, the
header (bytes 32..35) declares the frame section at offset 54, but the 16
bytes found there are not the frame record — the record actually starts at
byte 55, because the string-section size was computed from the name's
code-point count (1) while its UTF-8 encoding occupies 2 bytes. -/
theorem binary_offset_contract_broken :
    ((binaryMap 1 1 [⟨[233], [⟨0,0,1,1⟩]⟩]).drop 32).take 4 = le32 54 ∧
    ((binaryMap 1 1 [⟨[233], [⟨0,0,1,1⟩]⟩]).drop 54).take 16 ≠
      le32 0 ++ le32 0 ++ le32 1 ++ le32 1 ∧
    ((binaryMap 1 1 [⟨[233], [⟨0,0,1,1⟩]⟩]).drop 55).take 16 =
      le32 0 ++ le32 0 ++ le32 1 ++ le32 1 ∧
    (binaryMap 1 1 [⟨[233], [⟨0,0,1,1⟩]⟩]).length = 71 := by
  decide

/-- The y value emitted by `JsonTextureAtlasMap.write`:
`(atlas.height - 1) - frame.y - (frame.height - 1)`, over Python's
unbounded signed integers, hence `Int`. -/
def jsonY (atlasHeight : Nat) (f : Rect) : Int :=
  ((atlasHeight : Int) - 1) - (f.y : Int) - ((f.height : Int) - 1)

/-- The structured entries the JSON writer serializes: one (name, frames)
pair per texture in atlas order, each frame as (x, flipped y, width,
height). -/
def jsonEntries (atlasHeight : Nat) (texs : List Texture) :
    List (List Nat × List (Int × Int × Int × Int)) :=
  texs.map fun t =>
    (t.name, t.frames.map fun f =>
      ((f.x : Int), jsonY atlasHeight f, (f.width : Int), (f.height : Int)))

/-- C4: the y emitted by the JSON codec equals
`atlas_height - frame.y - frame.height`, and the flip law
`json_y + frame.height + frame.y = atlas.height` holds for every emitted
frame entry. -/
theorem json_flip_law (hgt : Nat) (texs : List Texture) :
    jsonEntries hgt texs = texs.map (fun t => (t.name, t.frames.map fun f =>
      ((f.x : Int), (hgt : Int) - (f.y : Int) - (f.height : Int),
        (f.width : Int), (f.height : Int)))) ∧
    ∀ t ∈ texs, ∀ f ∈ t.frames,
      jsonY hgt f + (f.height : Int) + (f.y : Int) = (hgt : Int) := by
  constructor
  · simp only [jsonEntries]
    apply List.map_congr_left
    intro t _
    refine congrArg (fun l => (t.name, l)) ?_
    apply List.map_congr_left
    intro f _
    have hy : jsonY hgt f = (hgt : Int) - (f.y : Int) - (f.height : Int) := by
      unfold jsonY; ring
    rw [hy]
  · intro t _ f _
    unfold jsonY
    ring

/-- Witness for C4 at one concrete frame in a height-10 atlas. -/
theorem json_flip_law_witness :
    jsonY 10 ⟨2, 3, 4, 5⟩ + ((⟨2, 3, 4, 5⟩ : Rect).height : Int) +
      ((⟨2, 3, 4, 5⟩ : Rect).y : Int) = ((10 : Nat) : Int) :=
  (json_flip_law 10 [⟨[99], [⟨2, 3, 4, 5⟩]⟩]).2 ⟨[99], [⟨2, 3, 4, 5⟩]⟩
    (by simp) ⟨2, 3, 4, 5⟩ (by simp)

/-- C9 counterexample: when the image collaborator reports width 0,
`Frame` construction still succeeds and yields a zero-width frame —
`Frame.__init__` contains no dimension validation and no failure path of
its own. -/
theorem frame_zero_size_counterexample :
    Frame.ofSize 0 5 = ⟨0, 0, 0, 5⟩ ∧ (Frame.ofSize 0 5).width = 0 := by
  decide

/-- C9 amended: `Frame.__init__` stores exactly the dimensions the
collaborator reports, at position (0,0), succeeding unconditionally. -/
theorem frame_construction_no_validation (w h : Nat) :
    Frame.ofSize w h = ⟨0, 0, w, h⟩ := rfl

theorem mem_insertDesc (t u : Texture) (l : List Texture) :
    u ∈ insertDesc t l ↔ u = t ∨ u ∈ l := by
  induction l with
  | nil => simp [insertDesc]
  | cons v vs ih =>
    rw [insertDesc]
    by_cases h : texKey t < texKey v
    · rw [if_pos h]
      simp only [List.mem_cons, ih]
      tauto
    · rw [if_neg h]
      simp only [List.mem_cons]

theorem insertDesc_perm (t : Texture) (l : List Texture) :
    List.Perm (insertDesc t l) (t :: l) := by
  induction l with
  | nil => simp [insertDesc]
  | cons v vs ih =>
    rw [insertDesc]
    by_cases h : texKey t < texKey v
    · rw [if_pos h]
      exact (ih.cons v).trans (List.Perm.swap t v vs)
    · rw [if_neg h]

/-- The sorted output is a permutation of the input. -/
theorem sortTextures_perm (ts : List Texture) :
    List.Perm (sortTextures ts) ts := by
  induction ts with
  | nil => rfl
  | cons t ts ih =>
    have hstep : sortTextures (t :: ts) = insertDesc t (sortTextures ts) := rfl
    rw [hstep]
    exact (insertDesc_perm t (sortTextures ts)).trans (ih.cons t)

theorem insertDesc_pairwise {l : List Texture} (t : Texture)
    (h : l.Pairwise (fun a b => texKey b ≤ texKey a)) :
    (insertDesc t l).Pairwise (fun a b => texKey b ≤ texKey a) := by
  induction l with
  | nil => simp [insertDesc]
  | cons v vs ih =>
    rw [insertDesc]
    rcases List.pairwise_cons.1 h with ⟨hv, hvs⟩
    by_cases hc : texKey t < texKey v
    · rw [if_pos hc]
      refine List.pairwise_cons.2 ⟨?_, ih hvs⟩
      intro b hb
      rcases (mem_insertDesc t b vs).1 hb with rfl | hbv
      · omega
      · exact hv b hbv
    · rw [if_neg hc]
      refine List.pairwise_cons.2 ⟨?_, h⟩
      intro b hb
      rcases List.mem_cons.1 hb with rfl | hbv
      · omega
      · have := hv b hbv
        omega

/-- The sorted output is in non-increasing key order. -/
theorem sortTextures_sorted (ts : List Texture) :
    (sortTextures ts).Pairwise (fun a b => texKey b ≤ texKey a) := by
  induction ts with
  | nil => simp [sortTextures]
  | cons t ts ih => exact insertDesc_pairwise t ih

theorem insertDesc_filter_eq (t : Texture) (l : List Texture) (k : Nat)
    (hk : texKey t = k) :
    (insertDesc t l).filter (fun u => texKey u == k) =
      t :: l.filter (fun u => texKey u == k) := by
  induction l with
  | nil => simp [insertDesc, hk]
  | cons v vs ih =>
    rw [insertDesc]
    by_cases hc : texKey t < texKey v
    · rw [if_pos hc]
      have hv : (texKey v == k) = false := by
        rw [beq_eq_false_iff_ne]
        omega
      rw [List.filter_cons, List.filter_cons, hv]
      simp only [Bool.false_eq_true, if_false]
      exact ih
    · rw [if_neg hc]
      rw [List.filter_cons]
      simp [hk]

theorem insertDesc_filter_ne (t : Texture) (l : List Texture) (k : Nat)
    (hk : texKey t ≠ k) :
    (insertDesc t l).filter (fun u => texKey u == k) =
      l.filter (fun u => texKey u == k) := by
  induction l with
  | nil => simp [insertDesc, hk]
  | cons v vs ih =>
    rw [insertDesc]
    by_cases hc : texKey t < texKey v
    · rw [if_pos hc]
      rw [List.filter_cons, List.filter_cons]
      by_cases hv : (texKey v == k) = true
      · rw [hv]
        simp only [if_true]
        rw [ih]
      · simp only [hv]
        rw [ih]
    · rw [if_neg hc]
      rw [List.filter_cons]
      simp [hk]

/-- Stability: textures with any given key value keep their original
relative order through the sort. -/
theorem sortTextures_stable (ts : List Texture) (k : Nat) :
    (sortTextures ts).filter (fun u => texKey u == k) =
      ts.filter (fun u => texKey u == k) := by
  induction ts with
  | nil => rfl
  | cons t ts ih =>
    have hstep : sortTextures (t :: ts) = insertDesc t (sortTextures ts) := rfl
    rw [hstep]
    by_cases hk : texKey t = k
    · rw [insertDesc_filter_eq t _ k hk, ih, List.filter_cons]
      simp [hk]
    · rw [insertDesc_filter_ne t _ k hk, ih, List.filter_cons]
      simp [hk]

/-- The two observable map outputs of a full run (binary bytes and JSON
entries) as a function of the input texture specs. -/
def mapOutputs (fuel : Nat) (ts : List Texture) :
    Option (List Nat × List (List Nat × List (Int × Int × Int × Int))) :=
  (mainPipeline fuel ts).map fun a =>
    (binaryMap a.region.rect.width a.region.rect.height a.textures,
     jsonEntries a.region.rect.height a.textures)

/-- C8: end-to-end map generation is deterministic — equal input spec
lists give byte-identical binary maps and identical JSON entries — and
the texture sort is the stable descending sort by first-frame perimeter:
a permutation of the input, in non-increasing key order, preserving the
original relative order of equal-key textures. -/
theorem map_generation_deterministic :
    (∀ (fuel : Nat) (ts1 ts2 : List Texture), ts1 = ts2 →
      mapOutputs fuel ts1 = mapOutputs fuel ts2) ∧
    (∀ ts : List Texture,
      List.Perm (sortTextures ts) ts ∧
      (sortTextures ts).Pairwise (fun a b => texKey b ≤ texKey a) ∧
      ∀ k, (sortTextures ts).filter (fun u => texKey u == k) =
        ts.filter (fun u => texKey u == k)) :=
  ⟨fun _ _ _ h => by rw [h],
   fun ts => ⟨sortTextures_perm ts, sortTextures_sorted ts,
     fun k => sortTextures_stable ts k⟩⟩

/-- Witness for C8: two identical runs on a concrete one-texture input
produce identical outputs. -/
theorem map_generation_deterministic_witness :
    mapOutputs 3 [⟨[100], [⟨0,0,2,2⟩]⟩] = mapOutputs 3 [⟨[100], [⟨0,0,2,2⟩]⟩] :=
  map_generation_deterministic.1 3 [⟨[100], [⟨0,0,2,2⟩]⟩]
    [⟨[100], [⟨0,0,2,2⟩]⟩] rfl
